import Mathlib

set_option maxRecDepth 8000

set_option allowUnsafeReducibility true

attribute [semireducible] Rat.add Rat.mul Rat.inv Rat.sub

namespace AdaptiveSignal

/-! Shallow embedding of `adaptive_signal_controller.py`.

Python floats (demand scores, EMA values) are modelled as exact rationals `ℚ`;
all the configured weights and the smoothing factor are dyadic, and the spec
treats scores as reals.  Python ints are modelled as `ℤ` (`skip_streak`, which
is only ever `0`-reset, incremented or clamped, as `ℕ`).  Python's `int(x)`
(truncation towards zero) is `pyTrunc`, `//` on ints is `Int.fdiv` (floor
division), `//` on floats is `Int.floor` of the rational value.  Dicts keyed by
the fixed approach set are modelled as total functions out of `Approach`,
together with the explicit key list where iteration order matters. -/

/-- The configured approaches (`APPROACHES = ["N", "E", "S", "W"]`);
declaration order is significant. -/
inductive Approach : Type
  | N
  | E
  | S
  | W
deriving DecidableEq, Fintype

/-- `APPROACHES`: the fixed, ordered approach list. -/
def APPROACHES : List Approach := [Approach.N, Approach.E, Approach.S, Approach.W]

/-- Printable name of an approach (used in the preemption reason string). -/
def Approach.name : Approach → String
  | Approach.N => "N"
  | Approach.E => "E"
  | Approach.S => "S"
  | Approach.W => "W"

/-- `Counts`: per-approach vehicle tally plus emergency flag
(`@dataclass class Counts`), all fields defaulting to zero / `False`. -/
structure Counts where
  car : ℤ := 0
  motorbike : ℤ := 0
  truck : ℤ := 0
  bus : ℤ := 0
  emergency : Bool := false
deriving DecidableEq

/-- `Counts()` — the all-defaults record. -/
def defaultCounts : Counts := {}

/-- A demand snapshot: a dict from approach to counts, possibly missing keys
(`snapshot.get(a, Counts())` supplies the default). -/
def Snapshot : Type := Approach → Option Counts

/-- `snapshot.get(a, Counts())`. -/
def getCounts (snap : Snapshot) (a : Approach) : Counts :=
  (snap a).getD defaultCounts

/-- The defaulted per-approach counts a snapshot denotes. -/
def snapCounts (snap : Snapshot) : Approach → Counts :=
  fun a => getCounts snap a

/-- Controller state: for every approach an `ApproachState(ema_score, skip_streak)`. -/
structure CtrlState where
  ema : Approach → ℚ
  skip : Approach → ℕ

/-- The freshly constructed controller state (all zeros). -/
def initState : CtrlState := ⟨fun _ => 0, fun _ => 0⟩

/-- `ALPHA_EMA = 0.5`. -/
def ALPHA_EMA : ℚ := 1/2

/-- `CYCLE_MIN = 60`. -/
def CYCLE_MIN : ℤ := 60

/-- `CYCLE_MAX = 120`. -/
def CYCLE_MAX : ℤ := 120

/-- `GREEN_MIN = 8`. -/
def GREEN_MIN : ℤ := 8

/-- `GREEN_MAX = 60`. -/
def GREEN_MAX : ℤ := 60

/-- `YELLOW = 3`. -/
def YELLOW : ℤ := 3

/-- `ALL_RED = 1`. -/
def ALL_RED : ℤ := 1

/-- `FAIRNESS_MAX_SKIP = 3`. -/
def FAIRNESS_MAX_SKIP : ℕ := 3

/-- `PREEMPT_MIN_GREEN = 12`. -/
def PREEMPT_MIN_GREEN : ℤ := 12

/-- `PREEMPT_MAX_GREEN = 25`. -/
def PREEMPT_MAX_GREEN : ℤ := 25

/-- `_score`: weighted sum of the counts with
`WEIGHTS = {car: 1.0, motorbike: 0.5, truck: 2.5, bus: 2.0}`. -/
def score (c : Counts) : ℚ :=
  1 * (c.car : ℚ) + (1/2) * (c.motorbike : ℚ) + (5/2) * (c.truck : ℚ) + 2 * (c.bus : ℚ)

/-- Python `int(x)`: truncation of a rational towards zero. -/
def pyTrunc (q : ℚ) : ℤ :=
  if q < 0 then ⌈q⌉ else ⌊q⌋

/-- Stable insertion of `x` (originally situated before every element of the
list) in front of the first element `y` with `bf x y`. -/
def insBy {α : Type} (bf : α → α → Bool) (x : α) : List α → List α
  | [] => [x]
  | y :: ys => if bf x y then x :: y :: ys else y :: insBy bf x ys

/-- Stable sort (Python `sorted` / `list.sort` semantics for a total preorder):
`bf x y` says that `x`, which occurs before `y` in the input, may stay before
`y` in the output. -/
def sortBy {α : Type} (bf : α → α → Bool) : List α → List α
  | [] => []
  | x :: xs => insBy bf x (sortBy bf xs)

/-- Python `max(l, key=key)`: the first element of `l` realising the maximal
key (`max` keeps the current best unless the new key is strictly greater). -/
def pyMaxBy (key : Approach → ℚ) : List Approach → Approach
  | [] => Approach.N
  | x :: xs => xs.foldl (fun b a => if key b < key a then a else b) x

/-- List indexing `l[n]` (only used with `n < l.length`). -/
def listAt : List Approach → ℕ → Approach
  | [], _ => Approach.N
  | x :: _, 0 => x
  | _ :: xs, n + 1 => listAt xs n

/-- `total = sum(max(0.0, v) for v in scores.values())` in `_normalize_split`,
with `order` the key list of the `scores` dict. -/
def splitTotal (order : List Approach) (scores : Approach → ℚ) : ℚ :=
  (order.map fun a => max 0 (scores a)).sum

/-- The two clamping passes of `_normalize_split` (enforce `GREEN_MIN`, then
`GREEN_MAX`) applied to one entry. -/
def clampShare (v : ℤ) : ℤ :=
  min GREEN_MAX (max GREEN_MIN v)

/-- The round-robin repair loop of `_normalize_split`
(`while diff != 0 and i < len(sorted_as) * 8`), with `fuel = 8*len - i`
remaining iterations.  Returns the dict, the residual `diff` and the final `i`. -/
def repairGo (sa : List Approach) (fuel i : ℕ) (raw : Approach → ℤ) (diff : ℤ) :
    (Approach → ℤ) × ℤ × ℕ :=
  match fuel with
  | 0 => (raw, diff, i)
  | fuel' + 1 =>
    if diff = 0 then (raw, diff, i)
    else
      let a := listAt sa (i % sa.length)
      if 0 < diff ∧ raw a < GREEN_MAX then
        repairGo sa fuel' (i + 1) (Function.update raw a (raw a + 1)) (diff - 1)
      else if diff < 0 ∧ GREEN_MIN < raw a then
        repairGo sa fuel' (i + 1) (Function.update raw a (raw a - 1)) (diff + 1)
      else
        repairGo sa fuel' (i + 1) raw diff

/-- The initial proportional shares of `_normalize_split`
(`int(green_budget * (max(0.0, s) / total))`) after the two clamping passes. -/
def splitRaw (order : List Approach) (scores : Approach → ℚ) (budget : ℤ) : Approach → ℤ :=
  fun a => clampShare (pyTrunc ((budget : ℚ) * (max 0 (scores a) / splitTotal order scores)))

/-- `diff = green_budget - sum(raw.values())` before the repair loop. -/
def splitDiff (order : List Approach) (scores : Approach → ℚ) (budget : ℤ) : ℤ :=
  budget - (order.map (splitRaw order scores budget)).sum

/-- `sorted_as = sorted(scores, key=lambda a: scores[a], reverse=(diff > 0))`:
the dict's keys (in insertion order `order`) stably sorted by score, descending
when seconds must be added and ascending when they must be removed. -/
def splitOrderAs (order : List Approach) (scores : Approach → ℚ) (budget : ℤ) : List Approach :=
  sortBy (fun a b => if 0 < splitDiff order scores budget then decide (scores b ≤ scores a)
                     else decide (scores a ≤ scores b)) order

/-- The proportional branch of `_normalize_split`: initial clamped shares, then
the bounded round-robin repair loop. -/
def splitRepair (order : List Approach) (scores : Approach → ℚ) (budget : ℤ) :
    (Approach → ℤ) × ℤ × ℕ :=
  repairGo (splitOrderAs order scores budget) (8 * (splitOrderAs order scores budget).length) 0
    (splitRaw order scores budget) (splitDiff order scores budget)

/-- `_normalize_split(scores, green_budget)`; `order` is the key list of the
`scores` dict.  The zero-total branch returns the equal minimal share
`min(GREEN_MAX, max(GREEN_MIN, green_budget // len(scores)))` for every key. -/
def normalize_split (order : List Approach) (scores : Approach → ℚ) (budget : ℤ) :
    Approach → ℤ :=
  if splitTotal order scores = 0 then
    fun _ => clampShare (Int.fdiv budget (order.length : ℤ))
  else
    (splitRepair order scores budget).1

/-- The EMA scores after `_update_ema`:
`alpha * raw + (1 - alpha) * previous` for every approach. -/
def emaNext (st : CtrlState) (cs : Approach → Counts) : Approach → ℚ :=
  fun a => ALPHA_EMA * score (cs a) + (1 - ALPHA_EMA) * st.ema a

/-- `em_approaches = [a for a, f in emergencies.items() if f]`. -/
def emApproaches (cs : Approach → Counts) : List Approach :=
  APPROACHES.filter fun a => (cs a).emergency

/-- `target = max(em_approaches, key=lambda a: ema_scores[a])`. -/
def preemptTarget (st : CtrlState) (cs : Approach → Counts) : Approach :=
  pyMaxBy (emaNext st cs) (emApproaches cs)

/-- The preemption green time
`max(PREEMPT_MIN_GREEN, min(PREEMPT_MAX_GREEN, int(ema // 2 + GREEN_MIN)))`. -/
def preemptGreen (s : ℚ) : ℤ :=
  max PREEMPT_MIN_GREEN (min PREEMPT_MAX_GREEN (⌊s / 2⌋ + GREEN_MIN))

/-- `order = sorted(APPROACHES, key=lambda a: ema_scores[a], reverse=True)`. -/
def demandOrder (st : CtrlState) (cs : Approach → Counts) : List Approach :=
  sortBy (fun a b => decide (emaNext st cs b ≤ emaNext st cs a)) APPROACHES

/-- `_apply_fairness`: stable sort by `skip_streak` descending. -/
def apply_fairness (st : CtrlState) (order : List Approach) : List Approach :=
  sortBy (fun a b => decide (st.skip b ≤ st.skip a)) order

/-- The phase order of the non-preemption path (demand order re-sorted by
fairness). -/
def fairOrder (st : CtrlState) (cs : Approach → Counts) : List Approach :=
  apply_fairness st (demandOrder st cs)

/-- `congestion = sum(ema_scores.values())`. -/
def congestion (st : CtrlState) (cs : Approach → Counts) : ℚ :=
  (APPROACHES.map (emaNext st cs)).sum

/-- `cycle = int(max(CYCLE_MIN, min(CYCLE_MAX, CYCLE_MIN + (congestion / 50))))`. -/
def cycleLen (st : CtrlState) (cs : Approach → Counts) : ℤ :=
  pyTrunc (max (CYCLE_MIN : ℚ) (min (CYCLE_MAX : ℚ) ((CYCLE_MIN : ℚ) + congestion st cs / 50)))

/-- `intergreens = (YELLOW + ALL_RED) * len(order)`. -/
def intergreensOf (st : CtrlState) (cs : Approach → Counts) : ℤ :=
  (YELLOW + ALL_RED) * ((fairOrder st cs).length : ℤ)

/-- `green_budget = max(CYCLE_MIN, cycle) - intergreens`. -/
def greenBudget (st : CtrlState) (cs : Approach → Counts) : ℤ :=
  max CYCLE_MIN (cycleLen st cs) - intergreensOf st cs

/-- `green_splits = self._normalize_split({a: ema_scores[a] for a in order}, green_budget)`. -/
def normalSplits (st : CtrlState) (cs : Approach → Counts) : Approach → ℤ :=
  normalize_split (fairOrder st cs) (emaNext st cs) (greenBudget st cs)

/-- The emitted timing plan (`@dataclass class Plan`); `green_times` keeps the
dict's key insertion order. -/
structure Plan where
  phase_order : List Approach := []
  green_times : List (Approach × ℤ) := []
  cycle_time : ℤ := 0
  reason : String := ""
deriving DecidableEq

/-- `compute_plan` on already-defaulted counts: EMA update, preemption check,
and either the single-phase preemption plan or the adaptive split plan, paired
with the post-invocation controller state. -/
def planCore (st : CtrlState) (cs : Approach → Counts) : Plan × CtrlState :=
  if emApproaches cs = [] then
    let order := fairOrder st cs
    let splits := normalSplits st cs
    ({ phase_order := order
       green_times := order.map fun a => (a, splits a)
       cycle_time := greenBudget st cs + intergreensOf st cs
       reason := "Adaptive split by EMA demand with fairness" },
     { ema := emaNext st cs
       skip := fun a => min FAIRNESS_MAX_SKIP (if 0 < splits a then 0 else st.skip a + 1) })
  else
    let target := preemptTarget st cs
    let g := preemptGreen (emaNext st cs target)
    ({ phase_order := [target]
       green_times := [(target, g)]
       cycle_time := YELLOW + ALL_RED + g
       reason := "Emergency preemption on " ++ target.name },
     { ema := emaNext st cs
       skip := fun a => if a = target then 0 else st.skip a + 1 })

/-- `compute_plan(snapshot)`: returns the `Plan` together with the updated
controller state. -/
def compute_plan (st : CtrlState) (snap : Snapshot) : Plan × CtrlState :=
  planCore st (snapCounts snap)

/-- The hypothesis of the budget-exactness property: the proportional branch
of `_normalize_split` was taken and its repair loop drove `diff` to zero. -/
def splitConverges (st : CtrlState) (cs : Approach → Counts) : Prop :=
  splitTotal (fairOrder st cs) (emaNext st cs) ≠ 0 ∧
    (splitRepair (fairOrder st cs) (emaNext st cs) (greenBudget st cs)).2.1 = 0

instance (st : CtrlState) (cs : Approach → Counts) : Decidable (splitConverges st cs) := by
  unfold splitConverges
  infer_instance

/-- A snapshot extended with an explicit all-defaults entry at `a0`. -/
def extendSnap (snap : Snapshot) (a0 : Approach) : Snapshot :=
  fun a => if a = a0 then some defaultCounts else snap a

/-! ### Concrete inputs used to exercise the theorems below. -/

/-- A uniform snapshot: eleven cars on every approach, no emergency. -/
def wSnapU : Snapshot := fun _ => some { car := 11 }

/-- An emergency snapshot: emergencies on `N` (ten cars) and `E` (thirty cars). -/
def wSnapE : Snapshot := fun a =>
  match a with
  | Approach.N => some { car := 10, emergency := true }
  | Approach.E => some { car := 30, emergency := true }
  | _ => none

/-- The empty snapshot (every approach missing). -/
def wSnapNone : Snapshot := fun _ => none

/-- A state in which every approach has been skipped three times. -/
def wStSkip : CtrlState := ⟨fun _ => 0, fun _ => 3⟩

/-- A state with `skip N = skip E = 8` (reached through repeated preemption)
and `skip W = 3`, the fairness ceiling. -/
def wStC6 : CtrlState :=
  ⟨fun _ => 0,
   fun a =>
     match a with
     | Approach.N => 8
     | Approach.E => 8
     | Approach.S => 0
     | Approach.W => 3⟩

/-- An emergency on `S` with zero vehicle counts. -/
def wSnapEmS : Snapshot := fun a => if a = Approach.S then some { emergency := true } else some {}

/-- An emergency on `W` with zero vehicle counts. -/
def wSnapEmW : Snapshot := fun a => if a = Approach.W then some { emergency := true } else some {}

/-- Fold a sequence of snapshots through the controller, returning the final
state. -/
def runPlans (st : CtrlState) (l : List Snapshot) : CtrlState :=
  l.foldl (fun s snap => (compute_plan s snap).2) st

instance : DecidableEq CtrlState := fun s t =>
  decidable_of_iff (s.ema = t.ema ∧ s.skip = t.skip) (by
    cases s
    cases t
    simp)

/-- A state with `skip W = 3`, the fairness ceiling, and all other streaks zero. -/
def wStC6b : CtrlState := ⟨fun _ => 0, fun a => if a = Approach.W then 3 else 0⟩

/-- A snapshot with demand only on `W`, no emergency. -/
def wSnapW : Snapshot := fun a => if a = Approach.W then some { car := 10 } else some {}

/-! ### Infrastructure lemmas about the stable sort, the repair loop and the
first-maximum search. -/

theorem insBy_perm {α : Type} (bf : α → α → Bool) (x : α) :
    ∀ l : List α, List.Perm (insBy bf x l) (x :: l)
  | [] => List.Perm.refl _
  | y :: ys => by
    by_cases h : bf x y = true
    · rw [insBy, if_pos h]
    · rw [insBy, if_neg h]
      exact ((insBy_perm bf x ys).cons y).trans (List.Perm.swap x y ys)

theorem sortBy_perm {α : Type} (bf : α → α → Bool) :
    ∀ l : List α, List.Perm (sortBy bf l) l
  | [] => List.Perm.refl _
  | x :: xs => (insBy_perm bf x (sortBy bf xs)).trans ((sortBy_perm bf xs).cons x)

theorem sortBy_length {α : Type} (bf : α → α → Bool) (l : List α) :
    (sortBy bf l).length = l.length :=
  (sortBy_perm bf l).length_eq

theorem sortBy_mem {α : Type} (bf : α → α → Bool) (l : List α) (a : α) :
    a ∈ sortBy bf l ↔ a ∈ l :=
  (sortBy_perm bf l).mem_iff

theorem sortBy_nodup {α : Type} (bf : α → α → Bool) (l : List α) (h : l.Nodup) :
    (sortBy bf l).Nodup :=
  (sortBy_perm bf l).symm.nodup h

theorem listAt_mem : ∀ (l : List Approach) (n : ℕ), n < l.length → listAt l n ∈ l
  | [], n, h => absurd h (by simp)
  | x :: xs, 0, _ => List.mem_cons_self x xs
  | _ :: xs, n + 1, h => List.mem_cons_of_mem _ (listAt_mem xs n (by simpa using h))

theorem map_update_of_not_mem {l : List Approach} {f : Approach → ℤ} {a : Approach}
    (h : a ∉ l) (v : ℤ) : l.map (Function.update f a v) = l.map f := by
  induction l with
  | nil => rfl
  | cons x xs ih =>
    have hx : x ≠ a := by rintro rfl; exact h (List.mem_cons_self _ _)
    simp only [List.map_cons, Function.update_noteq hx]
    rw [ih fun hm => h (List.mem_cons_of_mem _ hm)]

theorem sum_map_update (l : List Approach) (hnd : l.Nodup) (f : Approach → ℤ) (a : Approach)
    (ha : a ∈ l) (v : ℤ) :
    (l.map (Function.update f a v)).sum = (l.map f).sum - f a + v := by
  induction l with
  | nil => cases ha
  | cons x xs ih =>
    rcases List.mem_cons.mp ha with rfl | hmem
    · have hnx : a ∉ xs := (List.nodup_cons.mp hnd).1
      simp only [List.map_cons, List.sum_cons, Function.update_same, map_update_of_not_mem hnx]
      ring
    · have hx : x ≠ a := by rintro rfl; exact (List.nodup_cons.mp hnd).1 hmem
      simp only [List.map_cons, List.sum_cons, Function.update_noteq hx]
      rw [ih (List.nodup_cons.mp hnd).2 hmem]
      ring

theorem update_forall {α β : Type} [DecidableEq α] (P : β → Prop) (f : α → β) (a : α) (v : β)
    (hf : ∀ b, P (f b)) (hv : P v) : ∀ b, P (Function.update f a v b) := by
  intro b
  rcases eq_or_ne b a with rfl | hba
  · simpa [Function.update_same] using hv
  · simpa [Function.update_noteq hba] using hf b

theorem repairGo_sum (order sa : List Approach) (hnd : order.Nodup)
    (hsub : ∀ a ∈ sa, a ∈ order) (hne : sa ≠ []) (B : ℤ) :
    ∀ (fuel i : ℕ) (raw : Approach → ℤ) (diff : ℤ),
      (order.map raw).sum + diff = B →
      (order.map (repairGo sa fuel i raw diff).1).sum + (repairGo sa fuel i raw diff).2.1 = B := by
  intro fuel
  induction fuel with
  | zero => intro i raw diff h; simpa [repairGo] using h
  | succ n ih =>
    intro i raw diff h
    by_cases h0 : diff = 0
    · simpa [repairGo, h0] using h
    · have hlen : 0 < sa.length := by
        cases sa with
        | nil => exact absurd rfl hne
        | cons s ss => simp
      have hamem : listAt sa (i % sa.length) ∈ order :=
        hsub _ (listAt_mem sa _ (Nat.mod_lt _ hlen))
      by_cases h1 : 0 < diff ∧ raw (listAt sa (i % sa.length)) < GREEN_MAX
      · rw [show repairGo sa (n + 1) i raw diff
            = repairGo sa n (i + 1)
                (Function.update raw (listAt sa (i % sa.length))
                  (raw (listAt sa (i % sa.length)) + 1)) (diff - 1) from by
          simp [repairGo, h0, h1]]
        apply ih
        rw [sum_map_update order hnd raw _ hamem]
        omega
      · by_cases h2 : diff < 0 ∧ GREEN_MIN < raw (listAt sa (i % sa.length))
        · rw [show repairGo sa (n + 1) i raw diff
              = repairGo sa n (i + 1)
                  (Function.update raw (listAt sa (i % sa.length))
                    (raw (listAt sa (i % sa.length)) - 1)) (diff + 1) from by
            simp [repairGo, h0, h1, h2]]
          apply ih
          rw [sum_map_update order hnd raw _ hamem]
          omega
        · rw [show repairGo sa (n + 1) i raw diff = repairGo sa n (i + 1) raw diff from by
            simp [repairGo, h0, h1, h2]]
          exact ih _ _ _ h

theorem repairGo_bounds (sa : List Approach) :
    ∀ (fuel i : ℕ) (raw : Approach → ℤ) (diff : ℤ),
      (∀ b, GREEN_MIN ≤ raw b ∧ raw b ≤ GREEN_MAX) →
      ∀ b, GREEN_MIN ≤ (repairGo sa fuel i raw diff).1 b ∧
        (repairGo sa fuel i raw diff).1 b ≤ GREEN_MAX := by
  intro fuel
  induction fuel with
  | zero => intro i raw diff h b; simpa [repairGo] using h b
  | succ n ih =>
    intro i raw diff h b
    by_cases h0 : diff = 0
    · simpa [repairGo, h0] using h b
    · by_cases h1 : 0 < diff ∧ raw (listAt sa (i % sa.length)) < GREEN_MAX
      · rw [show repairGo sa (n + 1) i raw diff
            = repairGo sa n (i + 1)
                (Function.update raw (listAt sa (i % sa.length))
                  (raw (listAt sa (i % sa.length)) + 1)) (diff - 1) from by
          simp [repairGo, h0, h1]]
        refine ih _ _ _ (update_forall (fun v => GREEN_MIN ≤ v ∧ v ≤ GREEN_MAX) raw _ _ h ?_) b
        have := h (listAt sa (i % sa.length))
        omega
      · by_cases h2 : diff < 0 ∧ GREEN_MIN < raw (listAt sa (i % sa.length))
        · rw [show repairGo sa (n + 1) i raw diff
              = repairGo sa n (i + 1)
                  (Function.update raw (listAt sa (i % sa.length))
                    (raw (listAt sa (i % sa.length)) - 1)) (diff + 1) from by
            simp [repairGo, h0, h1, h2]]
          refine ih _ _ _ (update_forall (fun v => GREEN_MIN ≤ v ∧ v ≤ GREEN_MAX) raw _ _ h ?_) b
          have := h (listAt sa (i % sa.length))
          omega
        · rw [show repairGo sa (n + 1) i raw diff = repairGo sa n (i + 1) raw diff from by
            simp [repairGo, h0, h1, h2]]
          exact ih _ _ _ h b

theorem repairGo_iters (sa : List Approach) :
    ∀ (fuel i : ℕ) (raw : Approach → ℤ) (diff : ℤ),
      (repairGo sa fuel i raw diff).2.2 ≤ i + fuel := by
  intro fuel
  induction fuel with
  | zero => intro i raw diff; simp [repairGo]
  | succ n ih =>
    intro i raw diff
    by_cases h0 : diff = 0
    · simp [repairGo, h0]
    · by_cases h1 : 0 < diff ∧ raw (listAt sa (i % sa.length)) < GREEN_MAX
      · rw [show repairGo sa (n + 1) i raw diff
            = repairGo sa n (i + 1)
                (Function.update raw (listAt sa (i % sa.length))
                  (raw (listAt sa (i % sa.length)) + 1)) (diff - 1) from by
          simp [repairGo, h0, h1]]
        exact le_trans (ih _ _ _) (by omega)
      · by_cases h2 : diff < 0 ∧ GREEN_MIN < raw (listAt sa (i % sa.length))
        · rw [show repairGo sa (n + 1) i raw diff
              = repairGo sa n (i + 1)
                  (Function.update raw (listAt sa (i % sa.length))
                    (raw (listAt sa (i % sa.length)) - 1)) (diff + 1) from by
            simp [repairGo, h0, h1, h2]]
          exact le_trans (ih _ _ _) (by omega)
        · rw [show repairGo sa (n + 1) i raw diff = repairGo sa n (i + 1) raw diff from by
            simp [repairGo, h0, h1, h2]]
          exact le_trans (ih _ _ _) (by omega)

theorem clampShare_bounds (v : ℤ) : GREEN_MIN ≤ clampShare v ∧ clampShare v ≤ GREEN_MAX := by
  unfold clampShare GREEN_MIN GREEN_MAX
  constructor
  · exact le_min (by norm_num) (le_max_left _ _)
  · exact min_le_left _ _

theorem foldlMax_split (key : Approach → ℚ) :
    ∀ (xs : List Approach) (x : Approach),
      ∃ l1 l2 : List Approach,
        x :: xs = l1 ++ (xs.foldl (fun b a => if key b < key a then a else b) x) :: l2 ∧
        (∀ b ∈ l1, key b < key (xs.foldl (fun b a => if key b < key a then a else b) x)) ∧
        (∀ b ∈ l2, key b ≤ key (xs.foldl (fun b a => if key b < key a then a else b) x)) := by
  intro xs
  induction xs with
  | nil => exact fun x => ⟨[], [], rfl, by simp, by simp⟩
  | cons y ys ih =>
    intro x
    by_cases hxy : key x < key y
    · have hstep : (y :: ys).foldl (fun b a => if key b < key a then a else b) x
          = ys.foldl (fun b a => if key b < key a then a else b) y := by
        simp [hxy]
      obtain ⟨l1, l2, hdec, hl1, hl2⟩ := ih y
      rw [hstep]
      have hxt : key x < key (ys.foldl (fun b a => if key b < key a then a else b) y) := by
        cases l1 with
        | nil =>
          simp only [List.nil_append] at hdec
          injection hdec with h1 _
          rw [← h1]
          exact hxy
        | cons z l1t =>
          simp only [List.cons_append] at hdec
          injection hdec with h1 _
          have hyt := hl1 z (List.mem_cons_self _ _)
          rw [← h1] at hyt
          exact lt_trans hxy hyt
      exact ⟨x :: l1, l2, by rw [List.cons_append, ← hdec], by
        intro b hb
        rcases List.mem_cons.mp hb with rfl | hbl
        · exact hxt
        · exact hl1 b hbl, hl2⟩
    · have hstep : (y :: ys).foldl (fun b a => if key b < key a then a else b) x
          = ys.foldl (fun b a => if key b < key a then a else b) x := by
        simp [hxy]
      obtain ⟨l1, l2, hdec, hl1, hl2⟩ := ih x
      rw [hstep]
      cases l1 with
      | nil =>
        simp only [List.nil_append] at hdec
        injection hdec with h1 h2
        refine ⟨[], y :: ys, ?_, by simp, ?_⟩
        · simp only [List.nil_append]
          rw [← h1]
        · intro b hb
          rcases List.mem_cons.mp hb with rfl | hbys
          · rw [← h1]; exact not_lt.mp hxy
          · rw [h2] at hbys
            exact hl2 b hbys
      | cons z l1t =>
        simp only [List.cons_append] at hdec
        injection hdec with h1 h2
        have hxmem := hl1 z (List.mem_cons_self _ _)
        rw [← h1] at hxmem
        refine ⟨x :: y :: l1t, l2, ?_, ?_, hl2⟩
        · simp only [List.cons_append]
          conv_lhs => rw [h2]
        · intro b hb
          rcases List.mem_cons.mp hb with rfl | hb2
          · exact hxmem
          rcases List.mem_cons.mp hb2 with rfl | hb3
          · exact lt_of_le_of_lt (not_lt.mp hxy) hxmem
          · exact hl1 b (List.mem_cons_of_mem _ hb3)

theorem pyMaxBy_split (key : Approach → ℚ) (x : Approach) (xs : List Approach) :
    ∃ l1 l2, x :: xs = l1 ++ pyMaxBy key (x :: xs) :: l2 ∧
      (∀ b ∈ l1, key b < key (pyMaxBy key (x :: xs))) ∧
      (∀ b ∈ l2, key b ≤ key (pyMaxBy key (x :: xs))) :=
  foldlMax_split key xs x

theorem pyMaxBy_mem (key : Approach → ℚ) (x : Approach) (xs : List Approach) :
    pyMaxBy key (x :: xs) ∈ x :: xs := by
  obtain ⟨l1, l2, hdec, -, -⟩ := pyMaxBy_split key x xs
  have hmem : pyMaxBy key (x :: xs) ∈ l1 ++ pyMaxBy key (x :: xs) :: l2 :=
    List.mem_append_right l1 (List.mem_cons_self _ _)
  rwa [← hdec] at hmem

theorem pyMaxBy_le (key : Approach → ℚ) (x : Approach) (xs : List Approach) :
    ∀ b ∈ x :: xs, key b ≤ key (pyMaxBy key (x :: xs)) := by
  obtain ⟨l1, l2, hdec, hl1, hl2⟩ := pyMaxBy_split key x xs
  intro b hb
  have hb0 : b ∈ l1 ++ pyMaxBy key (x :: xs) :: l2 := hdec ▸ hb
  rcases List.mem_append.mp hb0 with hb1 | hb2
  · exact le_of_lt (hl1 b hb1)
  · rcases List.mem_cons.mp hb2 with rfl | hb3
    · exact le_refl _
    · exact hl2 b hb3

theorem insBy_sorted {α γ : Type} [LinearOrder γ] (key : α → γ) (x : α) (l : List α)
    (h : l.Pairwise fun p q => key q ≤ key p) :
    (insBy (fun p q => decide (key q ≤ key p)) x l).Pairwise fun p q => key q ≤ key p := by
  induction l with
  | nil => simp [insBy]
  | cons y ys ih =>
    rcases List.pairwise_cons.mp h with ⟨hy, hys⟩
    by_cases hxy : key y ≤ key x
    · rw [insBy, if_pos (by simpa using hxy)]
      refine List.pairwise_cons.mpr ⟨?_, h⟩
      intro z hz
      rcases List.mem_cons.mp hz with rfl | hzys
      · exact hxy
      · exact le_trans (hy z hzys) hxy
    · rw [insBy, if_neg (by simpa using hxy)]
      refine List.pairwise_cons.mpr ⟨?_, ih hys⟩
      intro z hz
      have hz2 : z = x ∨ z ∈ ys := by
        simpa using (insBy_perm (fun p q => decide (key q ≤ key p)) x ys).mem_iff.mp hz
      rcases hz2 with rfl | hzys
      · exact (not_le.mp hxy).le
      · exact hy z hzys

theorem sortBy_sorted {α γ : Type} [LinearOrder γ] (key : α → γ) :
    ∀ l : List α,
      (sortBy (fun p q => decide (key q ≤ key p)) l).Pairwise fun p q => key q ≤ key p
  | [] => by simp [sortBy]
  | x :: xs => by
    rw [sortBy]
    exact insBy_sorted key x _ (sortBy_sorted key xs)

theorem floor_max (a b : ℚ) : ⌊max a b⌋ = max ⌊a⌋ ⌊b⌋ := by
  rcases le_total a b with h | h
  · rw [max_eq_right h, max_eq_right (Int.floor_mono h)]
  · rw [max_eq_left h, max_eq_left (Int.floor_mono h)]

theorem floor_min (a b : ℚ) : ⌊min a b⌋ = min ⌊a⌋ ⌊b⌋ := by
  rcases le_total a b with h | h
  · rw [min_eq_left h, min_eq_left (Int.floor_mono h)]
  · rw [min_eq_right h, min_eq_right (Int.floor_mono h)]

theorem emApproaches_nil (cs : Approach → Counts) (h : ∀ a, (cs a).emergency = false) :
    emApproaches cs = [] := by
  simp [emApproaches, APPROACHES, h]

theorem APPROACHES_nodup : APPROACHES.Nodup := by decide

theorem fairOrder_perm (st : CtrlState) (cs : Approach → Counts) :
    List.Perm (fairOrder st cs) APPROACHES :=
  (sortBy_perm _ _).trans (sortBy_perm _ _)

theorem fairOrder_length (st : CtrlState) (cs : Approach → Counts) :
    (fairOrder st cs).length = APPROACHES.length :=
  (fairOrder_perm st cs).length_eq

theorem fairOrder_nodup (st : CtrlState) (cs : Approach → Counts) :
    (fairOrder st cs).Nodup :=
  (fairOrder_perm st cs).symm.nodup APPROACHES_nodup

theorem fairOrder_ne_nil (st : CtrlState) (cs : Approach → Counts) :
    fairOrder st cs ≠ [] := by
  intro h
  have := fairOrder_length st cs
  rw [h] at this
  simp [APPROACHES] at this

/-- The invariant `sum(raw.values()) + diff = green_budget` is preserved by the
repair loop, so the proportional branch always returns shares summing to the
budget minus the residual `diff`. -/
theorem splitRepair_sum (order : List Approach) (scores : Approach → ℚ) (budget : ℤ)
    (hnd : order.Nodup) (hne : order ≠ []) :
    (order.map (splitRepair order scores budget).1).sum + (splitRepair order scores budget).2.1
      = budget := by
  unfold splitRepair
  apply repairGo_sum order _ hnd
  · intro a ha
    exact (sortBy_mem _ _ _).mp ha
  · intro h
    apply hne
    have hlen := sortBy_length (fun a b => if 0 < splitDiff order scores budget
        then decide (scores b ≤ scores a) else decide (scores a ≤ scores b)) order
    unfold splitOrderAs at h
    rw [h] at hlen
    exact List.length_eq_zero.mp hlen.symm
  · unfold splitDiff
    ring

theorem splitRepair_bounds (order : List Approach) (scores : Approach → ℚ) (budget : ℤ) :
    ∀ b, GREEN_MIN ≤ (splitRepair order scores budget).1 b ∧
      (splitRepair order scores budget).1 b ≤ GREEN_MAX := by
  unfold splitRepair
  exact repairGo_bounds _ _ _ _ _ (fun b => clampShare_bounds _)

theorem normalize_split_bounds (order : List Approach) (scores : Approach → ℚ) (budget : ℤ) :
    ∀ b, GREEN_MIN ≤ normalize_split order scores budget b ∧
      normalize_split order scores budget b ≤ GREEN_MAX := by
  intro b
  unfold normalize_split
  by_cases h : splitTotal order scores = 0
  · rw [if_pos h]
    exact clampShare_bounds _
  · rw [if_neg h]
    exact splitRepair_bounds order scores budget b

theorem cycleLen_eq (st : CtrlState) (cs : Approach → Counts) :
    cycleLen st cs = max CYCLE_MIN (min CYCLE_MAX (CYCLE_MIN + ⌊congestion st cs / 50⌋)) := by
  unfold cycleLen pyTrunc
  have harg : (CYCLE_MIN : ℚ)
      ≤ max (CYCLE_MIN : ℚ) (min (CYCLE_MAX : ℚ) ((CYCLE_MIN : ℚ) + congestion st cs / 50)) :=
    le_max_left _ _
  rw [if_neg (not_lt.mpr (le_trans (by norm_num [CYCLE_MIN]) harg))]
  rw [floor_max, floor_min, Int.floor_intCast, Int.floor_intCast, Int.floor_int_add]

theorem cycleLen_ge (st : CtrlState) (cs : Approach → Counts) :
    CYCLE_MIN ≤ cycleLen st cs := by
  rw [cycleLen_eq]
  exact le_max_left _ _

/-! ### The claims. -/

/-- Claim C5: one call to `compute_plan` updates every approach's stored
smoothed score to exactly `alpha * raw + (1 - alpha) * previous`, in the
preemption path as well as the normal path. -/
theorem claim_C5_ema_update (st : CtrlState) (snap : Snapshot) (a : Approach) :
    (compute_plan st snap).2.ema a
      = ALPHA_EMA * score (getCounts snap a) + (1 - ALPHA_EMA) * st.ema a := by
  unfold compute_plan planCore
  by_cases h : emApproaches (snapCounts snap) = []
  · rw [if_pos h]
    rfl
  · rw [if_neg h]
    rfl

/-- Claim C4: in the non-preemption path every approach with positive green is
reset to skip-streak zero, the rest are incremented, and all are clamped to
`FAIRNESS_MAX_SKIP`; in the preemption path only the target is reset and the
rest increment with no clamp. -/
theorem claim_C4_skip_bookkeeping (st : CtrlState) (snap : Snapshot) :
    (emApproaches (snapCounts snap) ≠ [] →
      ∀ a, (compute_plan st snap).2.skip a
        = if a = preemptTarget st (snapCounts snap) then 0 else st.skip a + 1) ∧
    (emApproaches (snapCounts snap) = [] →
      ∀ a, (compute_plan st snap).2.skip a
        = min FAIRNESS_MAX_SKIP
            (if 0 < normalSplits st (snapCounts snap) a then 0 else st.skip a + 1)) := by
  constructor
  · intro h a
    unfold compute_plan planCore
    rw [if_neg h]
  · intro h a
    unfold compute_plan planCore
    rw [if_pos h]

theorem claim_C4_witness :
    (emApproaches (snapCounts wSnapE) ≠ [] ∧
      (compute_plan wStSkip wSnapE).2.skip Approach.S = 4 ∧ FAIRNESS_MAX_SKIP < 4) ∧
    (emApproaches (snapCounts wSnapU) = [] ∧
      (compute_plan initState wSnapU).2.skip Approach.N = 0) := by
  refine ⟨⟨by decide, ?_, by decide⟩, ⟨by decide, ?_⟩⟩
  · have h := (claim_C4_skip_bookkeeping wStSkip wSnapE).1 (by decide) Approach.S
    rw [h, if_neg (by decide)]
    decide
  · have h := (claim_C4_skip_bookkeeping initState wSnapU).2 (by decide) Approach.N
    rw [h]
    decide

/-- Claim C9: a snapshot missing an approach behaves exactly like the snapshot
extended with an all-zero, non-emergency entry for that approach (same plan,
same post-state). -/
theorem claim_C9_missing_defaults (st : CtrlState) (snap : Snapshot) (a0 : Approach)
    (h : snap a0 = none) :
    compute_plan st snap = compute_plan st (extendSnap snap a0) := by
  unfold compute_plan
  refine congrArg (planCore st) (funext fun a => ?_)
  unfold snapCounts getCounts extendSnap
  rcases eq_or_ne a a0 with rfl | hne
  · rw [h, if_pos rfl]
    rfl
  · rw [if_neg hne]

theorem claim_C9_witness :
    wSnapNone Approach.N = none ∧
      compute_plan initState wSnapNone
        = compute_plan initState (extendSnap wSnapNone Approach.N) :=
  ⟨rfl, claim_C9_missing_defaults initState wSnapNone Approach.N rfl⟩

/-- Claim C7: in the non-preemption path the cycle length equals
`clamp(CYCLE_MIN, CYCLE_MAX, CYCLE_MIN + floor(congestion / 50))`, and the
emitted `cycle_time` (recomputed as budget plus intergreens) equals it. -/
theorem claim_C7_cycle_value (st : CtrlState) (snap : Snapshot)
    (hem : ∀ a, (getCounts snap a).emergency = false) :
    cycleLen st (snapCounts snap)
        = max CYCLE_MIN (min CYCLE_MAX (CYCLE_MIN + ⌊congestion st (snapCounts snap) / 50⌋)) ∧
      (compute_plan st snap).1.cycle_time = cycleLen st (snapCounts snap) := by
  have hnil : emApproaches (snapCounts snap) = [] := emApproaches_nil _ hem
  refine ⟨cycleLen_eq st _, ?_⟩
  have hct : (compute_plan st snap).1.cycle_time
      = greenBudget st (snapCounts snap) + intergreensOf st (snapCounts snap) := by
    unfold compute_plan planCore
    rw [if_pos hnil]
  rw [hct]
  unfold greenBudget
  rw [max_eq_right (cycleLen_ge st _)]
  ring

theorem claim_C7_witness :
    (∀ a, (getCounts wSnapU a).emergency = false) ∧
    (cycleLen initState (snapCounts wSnapU)
        = max CYCLE_MIN
            (min CYCLE_MAX (CYCLE_MIN + ⌊congestion initState (snapCounts wSnapU) / 50⌋)) ∧
      (compute_plan initState wSnapU).1.cycle_time = cycleLen initState (snapCounts wSnapU)) :=
  ⟨by decide, claim_C7_cycle_value initState wSnapU (by decide)⟩

/-- Claim C1: with no emergency flagged, if the split-repair loop drives `diff`
to exactly zero then the green times sum to the cycle time minus the intergreen
overhead `(YELLOW + ALL_RED) * number_of_approaches`. -/
theorem claim_C1_budget_exact (st : CtrlState) (snap : Snapshot)
    (hem : ∀ a, (getCounts snap a).emergency = false)
    (hconv : splitConverges st (snapCounts snap)) :
    ((compute_plan st snap).1.green_times.map Prod.snd).sum
        + (YELLOW + ALL_RED) * (APPROACHES.length : ℤ)
      = (compute_plan st snap).1.cycle_time := by
  have hnil : emApproaches (snapCounts snap) = [] := emApproaches_nil _ hem
  have hgt : (compute_plan st snap).1.green_times
      = (fairOrder st (snapCounts snap)).map
          fun a => (a, normalSplits st (snapCounts snap) a) := by
    unfold compute_plan planCore
    rw [if_pos hnil]
  have hct : (compute_plan st snap).1.cycle_time
      = greenBudget st (snapCounts snap) + intergreensOf st (snapCounts snap) := by
    unfold compute_plan planCore
    rw [if_pos hnil]
  have hsplits : normalSplits st (snapCounts snap)
      = (splitRepair (fairOrder st (snapCounts snap)) (emaNext st (snapCounts snap))
          (greenBudget st (snapCounts snap))).1 := by
    unfold normalSplits normalize_split
    rw [if_neg hconv.1]
  have hsum := splitRepair_sum (fairOrder st (snapCounts snap)) (emaNext st (snapCounts snap))
      (greenBudget st (snapCounts snap)) (fairOrder_nodup st _) (fairOrder_ne_nil st _)
  rw [hconv.2, add_zero] at hsum
  rw [hgt, hct, List.map_map]
  have hcomp : (Prod.snd ∘ fun a => (a, normalSplits st (snapCounts snap) a))
      = normalSplits st (snapCounts snap) := rfl
  rw [hcomp, hsplits, hsum]
  unfold intergreensOf
  rw [fairOrder_length]

theorem claim_C1_witness :
    (∀ a, (getCounts wSnapU a).emergency = false) ∧
    splitConverges initState (snapCounts wSnapU) ∧
    ((compute_plan initState wSnapU).1.green_times.map Prod.snd).sum
        + (YELLOW + ALL_RED) * (APPROACHES.length : ℤ)
      = (compute_plan initState wSnapU).1.cycle_time :=
  ⟨by decide, by decide, claim_C1_budget_exact initState wSnapU (by decide) (by decide)⟩

/-- Claim C3: with no emergency flagged and the proportional branch taken
(nonzero clamped demand total), every emitted green time lies in
`[GREEN_MIN, GREEN_MAX]`. -/
theorem claim_C3_green_bounds (st : CtrlState) (snap : Snapshot)
    (hem : ∀ a, (getCounts snap a).emergency = false)
    (hprop : splitTotal (fairOrder st (snapCounts snap)) (emaNext st (snapCounts snap)) ≠ 0) :
    ∀ p ∈ (compute_plan st snap).1.green_times, GREEN_MIN ≤ p.2 ∧ p.2 ≤ GREEN_MAX := by
  have hnil : emApproaches (snapCounts snap) = [] := emApproaches_nil _ hem
  intro p hp
  have hgt : (compute_plan st snap).1.green_times
      = (fairOrder st (snapCounts snap)).map
          fun a => (a, normalSplits st (snapCounts snap) a) := by
    unfold compute_plan planCore
    rw [if_pos hnil]
  rw [hgt] at hp
  obtain ⟨a, -, rfl⟩ := List.mem_map.mp hp
  exact normalize_split_bounds _ _ _ a

theorem claim_C3_witness :
    (∀ a, (getCounts wSnapU a).emergency = false) ∧
    splitTotal (fairOrder initState (snapCounts wSnapU)) (emaNext initState (snapCounts wSnapU))
        ≠ 0 ∧
    ∀ p ∈ (compute_plan initState wSnapU).1.green_times, GREEN_MIN ≤ p.2 ∧ p.2 ≤ GREEN_MAX :=
  ⟨by decide, by decide, claim_C3_green_bounds initState wSnapU (by decide) (by decide)⟩

/-- Claim C10: since `GREEN_MIN = 8 > 0`, both branches of `_normalize_split`
give every configured approach at least `GREEN_MIN` seconds, so the
non-preemption path resets every skip-streak to zero and its increment branch
is unreachable. -/
theorem claim_C10_min_green_resets (st : CtrlState) (snap : Snapshot)
    (hem : ∀ a, (getCounts snap a).emergency = false) :
    (∀ a, GREEN_MIN ≤ normalSplits st (snapCounts snap) a) ∧
      ∀ a, (compute_plan st snap).2.skip a = 0 := by
  have hnil : emApproaches (snapCounts snap) = [] := emApproaches_nil _ hem
  refine ⟨fun a => (normalize_split_bounds _ _ _ a).1, fun a => ?_⟩
  have hskip : (compute_plan st snap).2.skip a
      = min FAIRNESS_MAX_SKIP
          (if 0 < normalSplits st (snapCounts snap) a then 0 else st.skip a + 1) := by
    unfold compute_plan planCore
    rw [if_pos hnil]
  have hpos : (0 : ℤ) < normalSplits st (snapCounts snap) a :=
    lt_of_lt_of_le (by norm_num [GREEN_MIN]) (normalize_split_bounds _ _ _ a).1
  rw [hskip, if_pos hpos]
  decide

theorem claim_C10_witness :
    (∀ a, (getCounts wSnapU a).emergency = false) ∧
    ((∀ a, GREEN_MIN ≤ normalSplits initState (snapCounts wSnapU) a) ∧
      ∀ a, (compute_plan initState wSnapU).2.skip a = 0) :=
  ⟨by decide, claim_C10_min_green_resets initState wSnapU (by decide)⟩

theorem preemptGreen_bounds (s : ℚ) :
    PREEMPT_MIN_GREEN ≤ preemptGreen s ∧ preemptGreen s ≤ PREEMPT_MAX_GREEN := by
  unfold preemptGreen PREEMPT_MIN_GREEN PREEMPT_MAX_GREEN
  exact ⟨le_max_left _ _, max_le (by norm_num) (min_le_left _ _)⟩

/-- Claim C2: with at least one emergency flagged, the plan serves exactly the
emergency approach of highest smoothed score (first in declaration order among
ties), with green `clamp(PREEMPT_MIN, PREEMPT_MAX, floor(score/2) + GREEN_MIN)`
— hence within `[PREEMPT_MIN, PREEMPT_MAX]` — and cycle
`YELLOW + ALL_RED + green`. -/
theorem claim_C2_preemption (st : CtrlState) (snap : Snapshot)
    (hem : emApproaches (snapCounts snap) ≠ []) :
    (compute_plan st snap).1.phase_order = [preemptTarget st (snapCounts snap)] ∧
    preemptTarget st (snapCounts snap) ∈ emApproaches (snapCounts snap) ∧
    (∀ b ∈ emApproaches (snapCounts snap),
      emaNext st (snapCounts snap) b
        ≤ emaNext st (snapCounts snap) (preemptTarget st (snapCounts snap))) ∧
    (∃ l1 l2, emApproaches (snapCounts snap) = l1 ++ preemptTarget st (snapCounts snap) :: l2 ∧
      ∀ b ∈ l1, emaNext st (snapCounts snap) b
        < emaNext st (snapCounts snap) (preemptTarget st (snapCounts snap))) ∧
    (compute_plan st snap).1.green_times
      = [(preemptTarget st (snapCounts snap),
          max PREEMPT_MIN_GREEN (min PREEMPT_MAX_GREEN
            (⌊emaNext st (snapCounts snap) (preemptTarget st (snapCounts snap)) / 2⌋
              + GREEN_MIN)))] ∧
    (∀ p ∈ (compute_plan st snap).1.green_times,
      PREEMPT_MIN_GREEN ≤ p.2 ∧ p.2 ≤ PREEMPT_MAX_GREEN) ∧
    (compute_plan st snap).1.cycle_time
      = YELLOW + ALL_RED
        + preemptGreen (emaNext st (snapCounts snap) (preemptTarget st (snapCounts snap))) := by
  have hpo : (compute_plan st snap).1.phase_order = [preemptTarget st (snapCounts snap)] := by
    unfold compute_plan planCore
    rw [if_neg hem]
  have hgt : (compute_plan st snap).1.green_times
      = [(preemptTarget st (snapCounts snap),
          preemptGreen (emaNext st (snapCounts snap) (preemptTarget st (snapCounts snap))))] := by
    unfold compute_plan planCore
    rw [if_neg hem]
  have hct : (compute_plan st snap).1.cycle_time
      = YELLOW + ALL_RED
        + preemptGreen (emaNext st (snapCounts snap) (preemptTarget st (snapCounts snap))) := by
    unfold compute_plan planCore
    rw [if_neg hem]
  refine ⟨hpo, ?_, ?_, ?_, by rw [hgt]; rfl, ?_, hct⟩
  · cases h : emApproaches (snapCounts snap) with
    | nil => exact absurd h hem
    | cons x xs =>
      unfold preemptTarget
      rw [h]
      exact pyMaxBy_mem _ x xs
  · cases h : emApproaches (snapCounts snap) with
    | nil => exact absurd h hem
    | cons x xs =>
      unfold preemptTarget
      rw [h]
      exact pyMaxBy_le _ x xs
  · cases h : emApproaches (snapCounts snap) with
    | nil => exact absurd h hem
    | cons x xs =>
      unfold preemptTarget
      rw [h]
      obtain ⟨l1, l2, hdec, hl1, -⟩ := pyMaxBy_split (emaNext st (snapCounts snap)) x xs
      exact ⟨l1, l2, hdec, hl1⟩
  · intro p hp
    rw [hgt] at hp
    rcases List.mem_cons.mp hp with rfl | hp2
    · exact preemptGreen_bounds _
    · cases hp2

theorem claim_C2_witness :
    emApproaches (snapCounts wSnapE) ≠ [] ∧
    ((compute_plan initState wSnapE).1.phase_order
        = [preemptTarget initState (snapCounts wSnapE)] ∧
      preemptTarget initState (snapCounts wSnapE) ∈ emApproaches (snapCounts wSnapE) ∧
      (∀ b ∈ emApproaches (snapCounts wSnapE),
        emaNext initState (snapCounts wSnapE) b
          ≤ emaNext initState (snapCounts wSnapE) (preemptTarget initState (snapCounts wSnapE))) ∧
      (∃ l1 l2,
        emApproaches (snapCounts wSnapE)
            = l1 ++ preemptTarget initState (snapCounts wSnapE) :: l2 ∧
          ∀ b ∈ l1, emaNext initState (snapCounts wSnapE) b
            < emaNext initState (snapCounts wSnapE)
                (preemptTarget initState (snapCounts wSnapE))) ∧
      (compute_plan initState wSnapE).1.green_times
        = [(preemptTarget initState (snapCounts wSnapE),
            max PREEMPT_MIN_GREEN (min PREEMPT_MAX_GREEN
              (⌊emaNext initState (snapCounts wSnapE)
                  (preemptTarget initState (snapCounts wSnapE)) / 2⌋ + GREEN_MIN)))] ∧
      (∀ p ∈ (compute_plan initState wSnapE).1.green_times,
        PREEMPT_MIN_GREEN ≤ p.2 ∧ p.2 ≤ PREEMPT_MAX_GREEN) ∧
      (compute_plan initState wSnapE).1.cycle_time
        = YELLOW + ALL_RED
          + preemptGreen (emaNext initState (snapCounts wSnapE)
              (preemptTarget initState (snapCounts wSnapE)))) :=
  ⟨by decide, claim_C2_preemption initState wSnapE (by decide)⟩

/-- Claim C6 counterexample: the state `wStC6` is reached from the fresh
controller by eight preemption invocations (the preemption path increments
skip-streaks with no ceiling clamp), leaving `skip N = skip E = 8`.  In it,
approach `W` sits exactly at the ceiling `FAIRNESS_MAX_SKIP` with nonzero
demand and no emergency is flagged, yet the emitted non-preemption order
places `N` and `E` — not tied with `W` on skip-streak — strictly before `W`,
so `W` is neither first nor tied-first. -/
theorem claim_C6_counterexample :
    runPlans initState
        [wSnapEmS, wSnapEmS, wSnapEmS, wSnapEmS, wSnapEmW, wSnapEmS, wSnapEmS, wSnapEmS]
      = wStC6 ∧
    wStC6.skip Approach.W = FAIRNESS_MAX_SKIP ∧
    emaNext wStC6 (snapCounts wSnapW) Approach.W ≠ 0 ∧
    (∀ b, (getCounts wSnapW b).emergency = false) ∧
    (compute_plan wStC6 wSnapW).1.phase_order
      = [Approach.N, Approach.E, Approach.W, Approach.S] ∧
    FAIRNESS_MAX_SKIP < wStC6.skip Approach.N ∧
    FAIRNESS_MAX_SKIP < wStC6.skip Approach.E := by
  exact ⟨by decide, by decide, by decide, by decide, by decide, by decide, by decide⟩

/-- Claim C6 (amended): the non-preemption order is the demand-descending
order stably re-sorted by skip-streak descending; and provided every
skip-streak is at most the ceiling (true except after the preemption quirk),
an approach at the ceiling with nonzero demand appears first or tied-first:
everything before it is also at the ceiling. -/
theorem claim_C6_fairness_first (st : CtrlState) (snap : Snapshot)
    (hem : ∀ a, (getCounts snap a).emergency = false)
    (a : Approach) (hceil : st.skip a = FAIRNESS_MAX_SKIP)
    (hall : ∀ b, st.skip b ≤ FAIRNESS_MAX_SKIP)
    (hdem : emaNext st (snapCounts snap) a ≠ 0) :
    (compute_plan st snap).1.phase_order
        = apply_fairness st (demandOrder st (snapCounts snap)) ∧
      ∀ l1 l2, (compute_plan st snap).1.phase_order = l1 ++ a :: l2 →
        ∀ b ∈ l1, st.skip b = FAIRNESS_MAX_SKIP := by
  have hnil : emApproaches (snapCounts snap) = [] := emApproaches_nil _ hem
  have hpo : (compute_plan st snap).1.phase_order = fairOrder st (snapCounts snap) := by
    unfold compute_plan planCore
    rw [if_pos hnil]
  refine ⟨hpo, ?_⟩
  intro l1 l2 hdec b hb
  rw [hpo] at hdec
  have hsorted : (fairOrder st (snapCounts snap)).Pairwise
      fun p q => st.skip q ≤ st.skip p :=
    sortBy_sorted (fun x => st.skip x) (demandOrder st (snapCounts snap))
  rw [hdec] at hsorted
  have hcross := (List.pairwise_append.mp hsorted).2.2 b hb a (List.mem_cons_self _ _)
  exact le_antisymm (hall b) (hceil ▸ hcross)

theorem claim_C6_witness :
    (∀ b, (getCounts wSnapW b).emergency = false) ∧
    wStC6b.skip Approach.W = FAIRNESS_MAX_SKIP ∧
    (∀ b, wStC6b.skip b ≤ FAIRNESS_MAX_SKIP) ∧
    emaNext wStC6b (snapCounts wSnapW) Approach.W ≠ 0 ∧
    ((compute_plan wStC6b wSnapW).1.phase_order
        = apply_fairness wStC6b (demandOrder wStC6b (snapCounts wSnapW)) ∧
      ∀ l1 l2, (compute_plan wStC6b wSnapW).1.phase_order = l1 ++ Approach.W :: l2 →
        ∀ b ∈ l1, wStC6b.skip b = FAIRNESS_MAX_SKIP) :=
  ⟨by decide, by decide, by decide, by decide,
    claim_C6_fairness_first wStC6b wSnapW (by decide) Approach.W (by decide) (by decide)
      (by decide)⟩

/-- Claim C8: `compute_plan` is total — every well-formed snapshot yields a
plan and post-state — and the split-repair loop performs at most
`8 * approach_count` iterations, whatever the inputs. -/
theorem claim_C8_total_bounded (st : CtrlState) (snap : Snapshot) :
    (∃ pr : Plan × CtrlState, compute_plan st snap = pr) ∧
    ∀ (order : List Approach) (scores : Approach → ℚ) (budget : ℤ),
      (splitRepair order scores budget).2.2 ≤ 8 * order.length := by
  refine ⟨⟨_, rfl⟩, fun order scores budget => ?_⟩
  have h := repairGo_iters (splitOrderAs order scores budget)
      (8 * (splitOrderAs order scores budget).length) 0 (splitRaw order scores budget)
      (splitDiff order scores budget)
  rw [zero_add] at h
  have hlen : (splitOrderAs order scores budget).length = order.length := by
    unfold splitOrderAs
    exact sortBy_length _ _
  unfold splitRepair
  rw [← hlen]
  exact h

end AdaptiveSignal
